import Mathlib

/-!
Shallow embedding of `src/withdatabase.py`, a Streamlit stock dashboard.

The Python program has three independent parts:

* a SQLite credential table `users(id, username UNIQUE, password)` with
  `register_user` / `authenticate_user` (plaintext, exact string match);
* a session flag `st.session_state["authenticated"]` driven by the
  `login` / `register` / `logout` handlers;
* `main_app`, which validates the date range, downloads a close series
  and derives indicator columns with pandas: rolling-mean MA, Bollinger
  bands (rolling mean plus or minus two rolling standard deviations),
  RSI (wilder-free rolling-mean variant) and MACD (ewm, adjust=False).

Modelling conventions:

* floats are idealised as `ℚ`; a pandas `NaN` cell is `Option.none`, so a
  derived column is `ℕ → Option ℚ`;
* pandas `rolling(window=w)` uses the default `min_periods = w`: the value
  at row `i` exists only when `w ≤ i + 1` and every cell of the window is
  present, and is the mean over exactly `w` cells;
* pandas `rolling(w).std()` is the square root of the sample variance
  (`ddof = 1`); the square root itself is a float operation that the
  embedding keeps abstract as a parameter `sqrtFn` (its only property used
  by any theorem, `sqrtFn 0 = 0`, holds for IEEE sqrt as well), while the
  variance is computed exactly;
* the sqlite table is a list of `(username, password)` rows in insertion
  order; the UNIQUE constraint makes the insert fail (IntegrityError,
  caught and turned into `false`) exactly when the username is present;
* Python `str.upper()` on the ticker is `String.toUpper` (the tickers are
  ASCII; both map only the basic latin letters considered here);
* `main_app` is modelled as the list of observable effects it performs, in
  order, with the network fetch abstracted as an oracle function.
-/

namespace StockApp

/-! ### Credential store (src/withdatabase.py lines 28-48) -/

/-- The `users` table: rows `(username, password)` in insertion order.
The `id INTEGER PRIMARY KEY AUTOINCREMENT` column is the list position. -/
abbrev DB := List (String × String)

/-- Line 28-39: `INSERT INTO users (username, password) VALUES (?, ?)`.
The UNIQUE constraint on `username` raises `IntegrityError` exactly when the
username already occurs; the handler returns `False` and leaves the table
unchanged. On success the row is appended and `True` returned. -/
def register_user (db : DB) (username password : String) : Bool × DB :=
  if db.any (fun row => row.1 == username) then (false, db)
  else (true, db ++ [(username, password)])

/-- Line 41-48: `SELECT * FROM users WHERE username = ? AND password = ?`;
returns whether a row matched. SQLite `=` on TEXT is byte equality
(BINARY collation), i.e. case-sensitive `String` equality. -/
def authenticate_user (db : DB) (username password : String) : Bool :=
  db.any (fun row => row.1 == username && row.2 == password)

/-! ### Session state machine (lines 51-74 and 163-176) -/

/-- One user interaction that can touch the credential table or the
session flag. -/
inductive Event where
  | loginEvent (username password : String)
  | registerEvent (username password : String)
  | logoutEvent
  deriving DecidableEq

/-- The persistent table together with the per-session
`st.session_state["authenticated"]` flag. -/
structure AppState where
  db : DB
  authenticated : Bool
  deriving DecidableEq

/-- Line 163-164: the flag starts out `False`; the table starts empty. -/
def initialState : AppState := { db := [], authenticated := false }

/-- Lines 51-74: `login` sets the flag to `True` exactly when
`authenticate_user` succeeds (otherwise it only shows an error);
`register` calls `register_user` and never touches the flag;
`logout` sets the flag to `False`. -/
def step (s : AppState) (e : Event) : AppState :=
  match e with
  | Event.loginEvent u p =>
      if authenticate_user s.db u p then { s with authenticated := true } else s
  | Event.registerEvent u p => { s with db := (register_user s.db u p).2 }
  | Event.logoutEvent => { s with authenticated := false }

/-- A session: the fold of `step` over the interaction sequence. -/
def run (s : AppState) (es : List Event) : AppState := es.foldl step s

/-! ### Rolling-window primitives (pandas `rolling`) -/

/-- The row indices covered by the window of size `w` ending at row `i`:
`max 0 (i+1-w), ..., i`. -/
def rollingWindow (w i : ℕ) : List ℕ := List.range' (i + 1 - w) (min w (i + 1))

/-- `series.rolling(window=w).mean()` at row `i`, for a series of length
`len` whose cell at row `j` is `f j` (`none` = NaN). With the default
`min_periods = window` the result exists only when the window fits
(`w ≤ i + 1`) and every cell in it is present. -/
def rollingMeanOptAt (f : ℕ → Option ℚ) (len w i : ℕ) : Option ℚ :=
  if w ≤ i + 1 ∧ i < len then
    if ((rollingWindow w i).map f).all Option.isSome
    then some ((((rollingWindow w i).map f).filterMap id).sum / (w : ℚ))
    else none
  else none

/-! ### Moving average and Bollinger bands (lines 113-124) -/

/-- The `Close` column: no NaN cells (yfinance data), `none` past the end. -/
def closeAt (closes : List ℚ) (i : ℕ) : Option ℚ := closes[i]?

/-- Line 114/119: `data['Close'].rolling(window=w).mean()` at row `i`. -/
def maAt (closes : List ℚ) (w i : ℕ) : Option ℚ :=
  rollingMeanOptAt (closeAt closes) closes.length w i

/-- Line 120: the square of `data['Close'].rolling(window=w).std()` at row
`i`: the sample variance (`ddof = 1`) of the window. For `w = 1` pandas
yields NaN (zero degrees of freedom), hence the `2 ≤ w` guard. -/
def stdVarAt (closes : List ℚ) (w i : ℕ) : Option ℚ :=
  if 2 ≤ w ∧ w ≤ i + 1 ∧ i < closes.length then
    some ((((rollingWindow w i).filterMap (closeAt closes)).map
        (fun x => (x - ((rollingWindow w i).filterMap (closeAt closes)).sum / (w : ℚ)) ^ 2)).sum
      / ((w : ℚ) - 1))
  else none

/-- Line 121: `data['MA'] + (data['Std'] * 2)`, where `Std` is the square
root of `stdVarAt`; `sqrtFn` abstracts the float square root. -/
def upperBandAt (sqrtFn : ℚ → ℚ) (closes : List ℚ) (w i : ℕ) : Option ℚ :=
  match maAt closes w i, stdVarAt closes w i with
  | some m, some v => some (m + sqrtFn v * 2)
  | _, _ => none

/-- Line 122: `data['MA'] - (data['Std'] * 2)`. -/
def lowerBandAt (sqrtFn : ℚ → ℚ) (closes : List ℚ) (w i : ℕ) : Option ℚ :=
  match maAt closes w i, stdVarAt closes w i with
  | some m, some v => some (m - sqrtFn v * 2)
  | _, _ => none

/-! ### RSI (lines 129-136) -/

/-- Line 130: `delta = data['Close'].diff()`; NaN at row 0. -/
def deltaAt (closes : List ℚ) (i : ℕ) : Option ℚ :=
  if i = 0 then none
  else
    match closes[i]?, closes[i - 1]? with
    | some a, some b => some (a - b)
    | _, _ => none

/-- Line 131: `up = delta.clip(lower=0)`, i.e. `max delta 0`. -/
def upAt (closes : List ℚ) (i : ℕ) : Option ℚ :=
  (deltaAt closes i).map (fun d => max d 0)

/-- Line 132: `down = -1 * delta.clip(upper=0)`, i.e. `max (-delta) 0`. -/
def downAt (closes : List ℚ) (i : ℕ) : Option ℚ :=
  (deltaAt closes i).map (fun d => max (-d) 0)

/-- Line 133: `avg_up = up.rolling(window=p).mean()`. -/
def avgUpAt (closes : List ℚ) (p i : ℕ) : Option ℚ :=
  rollingMeanOptAt (upAt closes) closes.length p i

/-- Line 134: `avg_down = down.rolling(window=p).mean()`. -/
def avgDownAt (closes : List ℚ) (p i : ℕ) : Option ℚ :=
  rollingMeanOptAt (downAt closes) closes.length p i

/-- Line 135, guard part: `avg_down.replace(0, np.nan)`: an exact zero
becomes NaN before the division. -/
def avgDownReplAt (closes : List ℚ) (p i : ℕ) : Option ℚ :=
  match avgDownAt closes p i with
  | some v => if v = 0 then none else some v
  | none => none

/-- Line 135: `rs = avg_up / avg_down.replace(0, np.nan)`. The divisor is
never the number 0 here: it is either NaN (propagated) or nonzero. -/
def rsAt (closes : List ℚ) (p i : ℕ) : Option ℚ :=
  match avgUpAt closes p i, avgDownReplAt closes p i with
  | some u, some d => some (u / d)
  | _, _ => none

/-- Line 136: `data['RSI'] = 100 - (100 / (1 + rs))`. -/
def rsiAt (closes : List ℚ) (p i : ℕ) : Option ℚ :=
  (rsAt closes p i).map (fun r => 100 - 100 / (1 + r))

/-! ### MACD and signal line (lines 142-147) -/

/-- The tail of `ewm(span, adjust=False).mean()` after the seed `prev`:
each output is `c * k + previous * (1 - k)`. -/
def emaFrom (k : ℚ) (prev : ℚ) : List ℚ → List ℚ
  | [] => []
  | c :: cs => (c * k + prev * (1 - k)) :: emaFrom k (c * k + prev * (1 - k)) cs

/-- `series.ewm(span=s, adjust=False).mean()`: `ema[0] = x[0]`,
`ema[i] = x[i] * k + ema[i-1] * (1 - k)` with `k = 2 / (s + 1)`. -/
def emaList (span : ℕ) (xs : List ℚ) : List ℚ :=
  match xs with
  | [] => []
  | c :: cs => c :: emaFrom (2 / ((span : ℚ) + 1)) c cs

/-- Lines 142-144: `macd = ewm(span=12) - ewm(span=26)` of the closes. -/
def macdList (closes : List ℚ) : List ℚ :=
  List.zipWith (fun a b => a - b) (emaList 12 closes) (emaList 26 closes)

/-- Line 145: `signal = macd.ewm(span=9, adjust=False).mean()`. -/
def signalList (closes : List ℚ) : List ℚ := emaList 9 (macdList closes)

/-! ### The main_app request flow (lines 77-160) -/

/-- The observable effects of one `main_app` run, in program order. -/
inductive Effect where
  | dateOrderError
  | fetched (ticker : String) (startD endD : Int)
  | noDataWarning (ticker : String)
  | chartsRendered
  deriving DecidableEq

/-- Lines 81-97 of `main_app`. Dates are idealised as integers (ordinal
days); `fetchClose` abstracts `yf.download`, returning the close series
the provider has for the (already uppercased) ticker and range.
Line 81 uppercases the input; lines 85-87 reject `start > end` with
`st.error` then `st.stop()`, before any download; line 91 downloads;
lines 93-94 warn on an empty result; otherwise the tabs render. -/
def main_app (fetchClose : String → Int → Int → List ℚ)
    (tickerInput : String) (startD endD : Int) : List Effect :=
  if startD > endD then [Effect.dateOrderError]
  else if (fetchClose tickerInput.toUpper startD endD).isEmpty then
    [Effect.fetched tickerInput.toUpper startD endD,
      Effect.noDataWarning tickerInput.toUpper]
  else [Effect.fetched tickerInput.toUpper startD endD, Effect.chartsRendered]

/-! ### Helper lemmas about the rolling-window primitives -/

theorem mem_rollingWindow {w i j : ℕ} (hw : w ≤ i + 1) :
    j ∈ rollingWindow w i ↔ i + 1 - w ≤ j ∧ j < i + 1 := by
  unfold rollingWindow
  rw [List.mem_range']
  constructor
  · rintro ⟨k, hk, rfl⟩
    omega
  · intro hj
    exact ⟨j - (i + 1 - w), by omega, by omega⟩

theorem length_rollingWindow (w i : ℕ) :
    (rollingWindow w i).length = min w (i + 1) := by
  unfold rollingWindow
  exact List.length_range' _ _ _

theorem rollingMeanOptAt_undef {f : ℕ → Option ℚ} {len w i : ℕ}
    (h : ¬(w ≤ i + 1 ∧ i < len)) : rollingMeanOptAt f len w i = none := by
  unfold rollingMeanOptAt
  rw [if_neg h]

theorem rollingMeanOptAt_none_of_mem {f : ℕ → Option ℚ} {len w i j : ℕ}
    (hj : j ∈ rollingWindow w i) (hfj : f j = none) :
    rollingMeanOptAt f len w i = none := by
  unfold rollingMeanOptAt
  split
  · have hall : ((rollingWindow w i).map f).all Option.isSome = false := by
      rw [Bool.eq_false_iff]
      intro hall
      rw [List.all_eq_true] at hall
      have := hall (f j) (List.mem_map_of_mem f hj)
      rw [hfj] at this
      simp at this
    rw [hall]
    simp
  · rfl

theorem filterMap_eq_replicate_of_const {l : List ℕ} {f : ℕ → Option ℚ} {c : ℚ}
    (h : ∀ j ∈ l, f j = some c) :
    l.filterMap f = List.replicate l.length c := by
  induction l with
  | nil => rfl
  | cons a l ih =>
    have ha := h a (List.mem_cons_self a l)
    simp [List.filterMap_cons, ha, List.replicate_succ,
      ih (fun j hj => h j (List.mem_cons_of_mem a hj))]

theorem sum_div_of_const {w : ℕ} {c : ℚ} (hw : 1 ≤ w) :
    (List.replicate w c).sum / (w : ℚ) = c := by
  rw [List.sum_replicate, nsmul_eq_mul]
  exact mul_div_cancel_left₀ c (Nat.cast_ne_zero.mpr (by omega))

theorem rollingMeanOptAt_const {f : ℕ → Option ℚ} {len w i : ℕ} {c : ℚ}
    (hw : 1 ≤ w) (hwi : w ≤ i + 1) (hlen : i < len)
    (hval : ∀ j, i + 1 - w ≤ j → j < i + 1 → f j = some c) :
    rollingMeanOptAt f len w i = some c := by
  have hmap : (rollingWindow w i).map f = List.replicate w (some c) := by
    rw [List.eq_replicate_iff]
    constructor
    · rw [List.length_map, length_rollingWindow]
      omega
    · intro b hb
      rw [List.mem_map] at hb
      obtain ⟨j, hj, rfl⟩ := hb
      rw [mem_rollingWindow hwi] at hj
      exact hval j hj.1 hj.2
  unfold rollingMeanOptAt
  rw [if_pos ⟨hwi, hlen⟩]
  simp only [hmap]
  rw [if_pos (by simp)]
  have hfm : (List.replicate w (some c)).filterMap id = List.replicate w c := by
    simp [List.filterMap_replicate, id]
  rw [hfm, sum_div_of_const hw]

theorem filterMap_id_eq_map_getD {l : List ℕ} {f : ℕ → Option ℚ}
    (h : ∀ j ∈ l, (f j).isSome = true) :
    (l.map f).filterMap id = l.map (fun j => (f j).getD 0) := by
  induction l with
  | nil => rfl
  | cons a l ih =>
    have ha := h a (List.mem_cons_self a l)
    obtain ⟨x, hx⟩ := Option.isSome_iff_exists.mp ha
    simp [List.filterMap_cons, hx,
      ih (fun j hj => h j (List.mem_cons_of_mem a hj))]

theorem rollingMeanOptAt_eq_sum {f : ℕ → Option ℚ} {len w i : ℕ}
    (hwi : w ≤ i + 1) (hlen : i < len)
    (hdef : ∀ j, i + 1 - w ≤ j → j < i + 1 → (f j).isSome = true) :
    rollingMeanOptAt f len w i
      = some (((rollingWindow w i).map (fun j => (f j).getD 0)).sum / (w : ℚ)) := by
  have hdef' : ∀ j ∈ rollingWindow w i, (f j).isSome = true := by
    intro j hj
    rw [mem_rollingWindow hwi] at hj
    exact hdef j hj.1 hj.2
  unfold rollingMeanOptAt
  rw [if_pos ⟨hwi, hlen⟩]
  have hall : ((rollingWindow w i).map f).all Option.isSome = true := by
    rw [List.all_eq_true]
    intro b hb
    rw [List.mem_map] at hb
    obtain ⟨j, hj, rfl⟩ := hb
    exact hdef' j hj
  rw [hall]
  simp only [if_pos]
  rw [filterMap_id_eq_map_getD hdef']

theorem rollingMeanOptAt_isSome_iff {f : ℕ → Option ℚ} {len w i : ℕ} :
    (rollingMeanOptAt f len w i).isSome = true
      ↔ (w ≤ i + 1 ∧ i < len ∧ ∀ j, i + 1 - w ≤ j → j < i + 1 → (f j).isSome = true) := by
  constructor
  · intro h
    by_cases hg : w ≤ i + 1 ∧ i < len
    · refine ⟨hg.1, hg.2, fun j hj1 hj2 => ?_⟩
      by_contra hnone
      have : f j = none := by
        cases hfj : f j with
        | none => rfl
        | some x => rw [hfj] at hnone; simp at hnone
      rw [rollingMeanOptAt_none_of_mem ((mem_rollingWindow hg.1).mpr ⟨hj1, hj2⟩) this] at h
      simp at h
    · rw [rollingMeanOptAt_undef hg] at h
      simp at h
  · rintro ⟨h1, h2, h3⟩
    rw [rollingMeanOptAt_eq_sum h1 h2 h3]
    rfl

/-! ### Claim C4: moving average -/

/-- C4: for every close series of length `L` and window `w ≤ L`, the moving
average at row `i` is the mean of `close[i-w+1..i]` whenever `i ≥ w - 1`
(stated as the sum over the `w` offsets into the window divided by `w`),
and is undefined for `i < w - 1`; concretely, for closes
`[10, ..., 20]` with `w = 5`, `MA[4] = 12`, `MA[10] = 18` and the first
four rows are undefined. -/
theorem c4_moving_average_mean :
    (∀ (closes : List ℚ) (w i : ℕ), 1 ≤ w → w - 1 ≤ i → i < closes.length →
        maAt closes w i
          = some (((List.range w).map (fun j => closes.getD (i + 1 - w + j) 0)).sum / (w : ℚ)))
    ∧ (∀ (closes : List ℚ) (w i : ℕ), i + 1 < w → maAt closes w i = none)
    ∧ maAt [10, 11, 12, 13, 14, 15, 16, 17, 18, 19, 20] 5 4 = some 12
    ∧ maAt [10, 11, 12, 13, 14, 15, 16, 17, 18, 19, 20] 5 10 = some 18
    ∧ (∀ i, i < 4 → maAt [10, 11, 12, 13, 14, 15, 16, 17, 18, 19, 20] 5 i = none) := by
  refine ⟨?_, ?_, ?_, ?_, ?_⟩
  · intro closes w i hw hwi hlen
    have hwi' : w ≤ i + 1 := by omega
    unfold maAt
    rw [rollingMeanOptAt_eq_sum hwi' hlen ?_]
    · have hwin : rollingWindow w i = (List.range w).map (fun j => i + 1 - w + j) := by
        unfold rollingWindow
        rw [min_eq_left hwi', List.range'_eq_map_range]
      rw [hwin, List.map_map]
      simp only [Function.comp_def, closeAt, List.getD_eq_getElem?_getD]
    · intro j _ hj2
      unfold closeAt
      rw [List.getElem?_eq_getElem (by omega)]
      rfl
  · intro closes w i hiw
    unfold maAt
    exact rollingMeanOptAt_undef (by omega)
  · norm_num [maAt, rollingMeanOptAt, rollingWindow, closeAt, List.range',
      List.filterMap_cons, List.sum_cons]
  · norm_num [maAt, rollingMeanOptAt, rollingWindow, closeAt, List.range',
      List.filterMap_cons, List.sum_cons]
  · intro i hi
    unfold maAt
    exact rollingMeanOptAt_undef (by omega)

/-- Witness for C4: the general mean formula instantiated at the concrete
11-point series, `w = 5`, `i = 6`. -/
theorem c4_moving_average_mean_witness :
    maAt [10, 11, 12, 13, 14, 15, 16, 17, 18, 19, 20] 5 6
      = some (((List.range 5).map
          (fun j => List.getD [10, 11, 12, 13, 14, 15, 16, 17, 18, 19, 20] (6 + 1 - 5 + j) 0)).sum
            / (5 : ℚ)) :=
  c4_moving_average_mean.1 [10, 11, 12, 13, 14, 15, 16, 17, 18, 19, 20] 5 6
    (by decide) (by decide) (by decide)

/-! ### Claim C6: MACD of a constant series -/

theorem emaFrom_replicate (k v : ℚ) : ∀ m, emaFrom k v (List.replicate m v) = List.replicate m v := by
  intro m
  induction m with
  | zero => rfl
  | succ m ih =>
    rw [List.replicate_succ]
    show (v * k + v * (1 - k)) :: emaFrom k (v * k + v * (1 - k)) (List.replicate m v)
      = v :: List.replicate m v
    have he : v * k + v * (1 - k) = v := by ring
    rw [he, ih]

theorem emaList_replicate (s m : ℕ) (v : ℚ) :
    emaList s (List.replicate m v) = List.replicate m v := by
  cases m with
  | zero => rfl
  | succ m =>
    rw [List.replicate_succ]
    show v :: emaFrom (2 / ((s : ℚ) + 1)) v (List.replicate m v) = v :: List.replicate m v
    rw [emaFrom_replicate]

/-- C6: for every constant close series, the MACD column (difference of the
span-12 and span-26 adjust=false EMAs) and the signal column (span-9 EMA of
MACD) are 0 at every index. -/
theorem c6_macd_signal_constant :
    ∀ (n : ℕ) (v : ℚ),
      macdList (List.replicate n v) = List.replicate n 0
      ∧ signalList (List.replicate n v) = List.replicate n 0 := by
  intro n v
  have hmacd : macdList (List.replicate n v) = List.replicate n 0 := by
    unfold macdList
    rw [emaList_replicate, emaList_replicate, List.zipWith_replicate', sub_self]
  refine ⟨hmacd, ?_⟩
  unfold signalList
  rw [hmacd, emaList_replicate]

/-! ### Claim C5: Bollinger bands on a constant series -/

theorem maAt_replicate {n w i : ℕ} {v : ℚ} (hw : 1 ≤ w) (hwi : w ≤ i + 1) (hin : i < n) :
    maAt (List.replicate n v) w i = some v := by
  unfold maAt
  apply rollingMeanOptAt_const hw hwi
  · rw [List.length_replicate]
    exact hin
  · intro j _ hj2
    unfold closeAt
    rw [List.getElem?_replicate_of_lt (by omega)]

theorem stdVarAt_undef {closes : List ℚ} {w i : ℕ}
    (h : ¬(2 ≤ w ∧ w ≤ i + 1 ∧ i < closes.length)) : stdVarAt closes w i = none := by
  unfold stdVarAt
  rw [if_neg h]

theorem stdVarAt_replicate {n w i : ℕ} {v : ℚ} (hw : 2 ≤ w) (hwi : w ≤ i + 1) (hin : i < n) :
    stdVarAt (List.replicate n v) w i = some 0 := by
  have hlen : i < (List.replicate n v).length := by
    rw [List.length_replicate]
    exact hin
  have hwin : (rollingWindow w i).filterMap (closeAt (List.replicate n v))
      = List.replicate w v := by
    have h1 : ∀ j ∈ rollingWindow w i, closeAt (List.replicate n v) j = some v := by
      intro j hj
      rw [mem_rollingWindow hwi] at hj
      unfold closeAt
      rw [List.getElem?_replicate_of_lt (by omega)]
    rw [filterMap_eq_replicate_of_const h1, length_rollingWindow]
    congr 1
    omega
  unfold stdVarAt
  rw [if_pos ⟨hw, hwi, hlen⟩, hwin, sum_div_of_const (by omega)]
  have hmap : (List.replicate w v).map (fun x => (x - v) ^ 2) = List.replicate w 0 := by
    rw [List.map_replicate, sub_self]
    norm_num
  rw [hmap, List.sum_replicate, smul_zero, zero_div]

theorem upperBandAt_of_some {sqrtFn : ℚ → ℚ} {closes : List ℚ} {w i : ℕ} {m s : ℚ}
    (hm : maAt closes w i = some m) (hs : stdVarAt closes w i = some s) :
    upperBandAt sqrtFn closes w i = some (m + sqrtFn s * 2) := by
  unfold upperBandAt
  rw [hm, hs]

theorem lowerBandAt_of_some {sqrtFn : ℚ → ℚ} {closes : List ℚ} {w i : ℕ} {m s : ℚ}
    (hm : maAt closes w i = some m) (hs : stdVarAt closes w i = some s) :
    lowerBandAt sqrtFn closes w i = some (m - sqrtFn s * 2) := by
  unfold lowerBandAt
  rw [hm, hs]

theorem upperBandAt_none_of_var_none {sqrtFn : ℚ → ℚ} {closes : List ℚ} {w i : ℕ}
    (hs : stdVarAt closes w i = none) : upperBandAt sqrtFn closes w i = none := by
  unfold upperBandAt
  rw [hs]
  cases maAt closes w i <;> rfl

theorem lowerBandAt_none_of_var_none {sqrtFn : ℚ → ℚ} {closes : List ℚ} {w i : ℕ}
    (hs : stdVarAt closes w i = none) : lowerBandAt sqrtFn closes w i = none := by
  unfold lowerBandAt
  rw [hs]
  cases maAt closes w i <;> rfl

/-- C5: for a constant close series the rolling sample variance is 0
wherever it is defined, so the Bollinger upper and lower bands (moving
average plus/minus twice the standard deviation over the same window)
both equal the moving average, i.e. the constant value, everywhere they
are defined; and for any window `2 ≤ w ≤ i + 1` with `i` in range all
three columns are defined with value `v`. `sqrtFn` is the float square
root of the variance, of which only `sqrtFn 0 = 0` is used. -/
theorem c5_bollinger_collapse_on_constant :
    ∀ (sqrtFn : ℚ → ℚ), sqrtFn 0 = 0 →
      ∀ (n w i : ℕ) (v : ℚ),
        (∀ s, stdVarAt (List.replicate n v) w i = some s → s = 0)
        ∧ (∀ u, upperBandAt sqrtFn (List.replicate n v) w i = some u → u = v)
        ∧ (∀ l, lowerBandAt sqrtFn (List.replicate n v) w i = some l → l = v)
        ∧ (2 ≤ w → w ≤ i + 1 → i < n →
            maAt (List.replicate n v) w i = some v
            ∧ upperBandAt sqrtFn (List.replicate n v) w i = some v
            ∧ lowerBandAt sqrtFn (List.replicate n v) w i = some v) := by
  intro sqrtFn hsqrt n w i v
  have hupv : 2 ≤ w → w ≤ i + 1 → i < n →
      upperBandAt sqrtFn (List.replicate n v) w i = some v := by
    intro h1 h2 h3
    rw [upperBandAt_of_some (maAt_replicate (by omega) h2 h3) (stdVarAt_replicate h1 h2 h3),
      hsqrt]
    norm_num
  have hlov : 2 ≤ w → w ≤ i + 1 → i < n →
      lowerBandAt sqrtFn (List.replicate n v) w i = some v := by
    intro h1 h2 h3
    rw [lowerBandAt_of_some (maAt_replicate (by omega) h2 h3) (stdVarAt_replicate h1 h2 h3),
      hsqrt]
    norm_num
  refine ⟨?_, ?_, ?_, fun h1 h2 h3 => ⟨maAt_replicate (by omega) h2 h3, hupv h1 h2 h3, hlov h1 h2 h3⟩⟩
  · intro s hs
    by_cases hg : 2 ≤ w ∧ w ≤ i + 1 ∧ i < (List.replicate n v).length
    · obtain ⟨h1, h2, h3⟩ := hg
      rw [List.length_replicate] at h3
      rw [stdVarAt_replicate h1 h2 h3] at hs
      exact (Option.some.injEq _ _ ▸ hs).symm
    · rw [stdVarAt_undef hg] at hs
      cases hs
  · intro u hu
    by_cases hg : 2 ≤ w ∧ w ≤ i + 1 ∧ i < (List.replicate n v).length
    · obtain ⟨h1, h2, h3⟩ := hg
      rw [List.length_replicate] at h3
      rw [hupv h1 h2 h3] at hu
      exact (Option.some.injEq _ _ ▸ hu).symm
    · rw [upperBandAt_none_of_var_none (stdVarAt_undef hg)] at hu
      cases hu
  · intro l hl
    by_cases hg : 2 ≤ w ∧ w ≤ i + 1 ∧ i < (List.replicate n v).length
    · obtain ⟨h1, h2, h3⟩ := hg
      rw [List.length_replicate] at h3
      rw [hlov h1 h2 h3] at hl
      exact (Option.some.injEq _ _ ▸ hl).symm
    · rw [lowerBandAt_none_of_var_none (stdVarAt_undef hg)] at hl
      cases hl

/-- Witness for C5: constant series of value 7, window 2, row 2: both
bands and the moving average are defined and equal 7. -/
theorem c5_bollinger_collapse_on_constant_witness :
    maAt (List.replicate 3 (7 : ℚ)) 2 2 = some 7
    ∧ upperBandAt (fun q => q) (List.replicate 3 (7 : ℚ)) 2 2 = some 7
    ∧ lowerBandAt (fun q => q) (List.replicate 3 (7 : ℚ)) 2 2 = some 7 :=
  (c5_bollinger_collapse_on_constant (fun q => q) rfl 3 2 2 7).2.2.2
    (by decide) (by decide) (by decide)

/-! ### Claim C3: domains of the derived columns -/

theorem deltaAt_isSome {closes : List ℚ} {j : ℕ} :
    (deltaAt closes j).isSome = true ↔ 1 ≤ j ∧ j < closes.length := by
  unfold deltaAt
  by_cases hj0 : j = 0
  · subst hj0
    simp
  · rw [if_neg hj0]
    by_cases hjl : j < closes.length
    · rw [List.getElem?_eq_getElem hjl, List.getElem?_eq_getElem (by omega : j - 1 < closes.length)]
      simp
      omega
    · rw [List.getElem?_eq_none (by omega)]
      simp
      omega

theorem upAt_isSome {closes : List ℚ} {j : ℕ} :
    (upAt closes j).isSome = (deltaAt closes j).isSome := by
  unfold upAt
  cases deltaAt closes j <;> rfl

theorem downAt_isSome {closes : List ℚ} {j : ℕ} :
    (downAt closes j).isSome = (deltaAt closes j).isSome := by
  unfold downAt
  cases deltaAt closes j <;> rfl

theorem deltaAt_zero (closes : List ℚ) : deltaAt closes 0 = none := by
  unfold deltaAt
  rw [if_pos rfl]

theorem avgUpAt_isSome {closes : List ℚ} {p i : ℕ} (hp : 1 ≤ p) :
    (avgUpAt closes p i).isSome = true ↔ p ≤ i ∧ i < closes.length := by
  unfold avgUpAt
  rw [rollingMeanOptAt_isSome_iff]
  constructor
  · rintro ⟨h1, h2, h3⟩
    refine ⟨?_, h2⟩
    by_contra hpi
    have h0 := h3 0 (by omega) (by omega)
    rw [upAt_isSome] at h0
    rw [deltaAt_zero] at h0
    cases h0
  · rintro ⟨hpi, hlen⟩
    refine ⟨by omega, hlen, fun j hj1 hj2 => ?_⟩
    rw [upAt_isSome, deltaAt_isSome]
    omega

theorem avgDownAt_isSome {closes : List ℚ} {p i : ℕ} (hp : 1 ≤ p) :
    (avgDownAt closes p i).isSome = true ↔ p ≤ i ∧ i < closes.length := by
  unfold avgDownAt
  rw [rollingMeanOptAt_isSome_iff]
  constructor
  · rintro ⟨h1, h2, h3⟩
    refine ⟨?_, h2⟩
    by_contra hpi
    have h0 := h3 0 (by omega) (by omega)
    rw [downAt_isSome] at h0
    rw [deltaAt_zero] at h0
    cases h0
  · rintro ⟨hpi, hlen⟩
    refine ⟨by omega, hlen, fun j hj1 hj2 => ?_⟩
    rw [downAt_isSome, deltaAt_isSome]
    omega

theorem avgDownReplAt_isSome {closes : List ℚ} {p i : ℕ} :
    (avgDownReplAt closes p i).isSome = true
      ↔ (avgDownAt closes p i).isSome = true ∧ avgDownAt closes p i ≠ some 0 := by
  unfold avgDownReplAt
  cases h : avgDownAt closes p i with
  | none => simp
  | some v =>
    by_cases hv : v = 0
    · subst hv
      simp
    · simp [hv]

theorem rsAt_isSome {closes : List ℚ} {p i : ℕ} :
    (rsAt closes p i).isSome = true
      ↔ (avgUpAt closes p i).isSome = true ∧ (avgDownReplAt closes p i).isSome = true := by
  unfold rsAt
  cases avgUpAt closes p i <;> cases avgDownReplAt closes p i <;> simp

theorem rsiAt_isSome {closes : List ℚ} {p i : ℕ} :
    (rsiAt closes p i).isSome = (rsAt closes p i).isSome := by
  unfold rsiAt
  cases rsAt closes p i <;> rfl

theorem maAt_isSome {closes : List ℚ} {w i : ℕ} (hlen : i < closes.length) :
    (maAt closes w i).isSome = true ↔ w ≤ i + 1 := by
  unfold maAt
  rw [rollingMeanOptAt_isSome_iff]
  constructor
  · rintro ⟨h1, _, _⟩
    exact h1
  · intro h1
    refine ⟨h1, hlen, fun j _ hj2 => ?_⟩
    unfold closeAt
    rw [List.getElem?_eq_getElem (by omega)]
    rfl

theorem stdVarAt_isSome {closes : List ℚ} {w i : ℕ} :
    (stdVarAt closes w i).isSome = true ↔ (2 ≤ w ∧ w ≤ i + 1 ∧ i < closes.length) := by
  unfold stdVarAt
  split
  · rename_i hg
    simp
    exact hg
  · rename_i hg
    simp
    omega

theorem upperBandAt_isSome {sqrtFn : ℚ → ℚ} {closes : List ℚ} {w i : ℕ} :
    (upperBandAt sqrtFn closes w i).isSome = true
      ↔ (maAt closes w i).isSome = true ∧ (stdVarAt closes w i).isSome = true := by
  unfold upperBandAt
  cases maAt closes w i <;> cases stdVarAt closes w i <;> simp

theorem lowerBandAt_isSome {sqrtFn : ℚ → ℚ} {closes : List ℚ} {w i : ℕ} :
    (lowerBandAt sqrtFn closes w i).isSome = true
      ↔ (maAt closes w i).isSome = true ∧ (stdVarAt closes w i).isSome = true := by
  unfold lowerBandAt
  cases maAt closes w i <;> cases stdVarAt closes w i <;> simp

/-- C3 (amended): for an index `i` inside the table, the MA and Bollinger
columns with window `n` are defined exactly when `n - 1 ≤ i` (so NaN
exactly on the first `n - 1` rows; for the bands `2 ≤ n`, as in the
slider range, since the sample standard deviation of one point is NaN);
the RSI column with period `n`, however, is defined exactly when `n ≤ i`
AND the rolling mean of the down-moves is nonzero — the `diff()` places a
NaN at row 0, so the first `n` rows (not `n - 1`) are NaN. -/
theorem c3_derived_column_domains :
    ∀ (sqrtFn : ℚ → ℚ) (closes : List ℚ) (n i : ℕ), i < closes.length →
      (1 ≤ n → ((maAt closes n i).isSome = true ↔ n - 1 ≤ i))
      ∧ (2 ≤ n →
          (((upperBandAt sqrtFn closes n i).isSome = true ↔ n - 1 ≤ i)
            ∧ ((lowerBandAt sqrtFn closes n i).isSome = true ↔ n - 1 ≤ i)))
      ∧ (1 ≤ n →
          ((rsiAt closes n i).isSome = true
            ↔ (n ≤ i ∧ avgDownAt closes n i ≠ some 0))) := by
  intro sqrtFn closes n i hlen
  have hma : 1 ≤ n → ((maAt closes n i).isSome = true ↔ n - 1 ≤ i) := by
    intro hn
    rw [maAt_isSome hlen]
    omega
  refine ⟨hma, ?_, ?_⟩
  · intro hn
    constructor
    · rw [upperBandAt_isSome, stdVarAt_isSome, maAt_isSome hlen]
      omega
    · rw [lowerBandAt_isSome, stdVarAt_isSome, maAt_isSome hlen]
      omega
  · intro hn
    rw [show (rsiAt closes n i).isSome = true ↔ (rsAt closes n i).isSome = true from by
      rw [rsiAt_isSome]]
    rw [rsAt_isSome, avgUpAt_isSome hn, avgDownReplAt_isSome, avgDownAt_isSome hn]
    constructor
    · rintro ⟨⟨h1, _⟩, _, h2⟩
      exact ⟨h1, h2⟩
    · rintro ⟨h1, h2⟩
      exact ⟨⟨h1, hlen⟩, ⟨h1, hlen⟩, h2⟩

/-- Counterexample for C3 as stated: with period `n = 2` and the close
series `[1, 2, 3]`, index `1 = n - 1` is in range, yet the RSI column is
NaN there (the `diff()` NaN at row 0 lies inside the rolling window), so
the column is NOT "defined at every index `i ≥ n - 1`". -/
theorem c3_counterexample_rsi :
    2 - 1 ≤ 1 ∧ 1 < ([1, 2, 3] : List ℚ).length ∧ rsiAt [1, 2, 3] 2 1 = none := by
  refine ⟨by decide, by decide, ?_⟩
  norm_num [rsiAt, rsAt, avgUpAt, avgDownAt, avgDownReplAt, rollingMeanOptAt,
    rollingWindow, upAt, downAt, deltaAt, closeAt, List.range', List.filterMap_cons,
    List.sum_cons]

/-- Witness for C3: the amended domain characterisation instantiated at
the series `[3, 1, 2, 1, 4]`, period 2, row 4. -/
theorem c3_derived_column_domains_witness :
    (rsiAt [3, 1, 2, 1, 4] 2 4).isSome = true
      ↔ (2 ≤ 4 ∧ avgDownAt [3, 1, 2, 1, 4] 2 4 ≠ some 0) :=
  (c3_derived_column_domains (fun q => q) [3, 1, 2, 1, 4] 2 4 (by decide)).2.2 (by decide)

/-! ### Claim C1: RSI of a strictly increasing series -/

theorem downAt_eq_zero_of_chain {closes : List ℚ} {j : ℕ}
    (hchain : List.Chain' (fun a b : ℚ => a < b) closes)
    (hj1 : 1 ≤ j) (hj2 : j < closes.length) : downAt closes j = some 0 := by
  rw [List.chain'_iff_get] at hchain
  have hR := hchain (j - 1) (by omega)
  have hab : closes.get ⟨j - 1, by omega⟩ < closes.get ⟨j, by omega⟩ := by
    convert hR using 3
    omega
  unfold downAt deltaAt
  rw [if_neg (by omega), List.getElem?_eq_getElem hj2,
    List.getElem?_eq_getElem (by omega : j - 1 < closes.length)]
  show some (max (-(closes.get ⟨j, hj2⟩ - closes.get ⟨j - 1, by omega⟩)) 0) = some 0
  rw [max_eq_right (by linarith)]

/-- C1: on a strictly increasing close series with any period
`2 ≤ p ≤ length`, every defined RSI value is 100 — vacuously so, because
the code maps the zero average-down onto NaN (`replace(0, np.nan)`), so
the RSI column is in fact NaN at every single index; in particular no
division by zero is ever performed (a zero average-down never reaches the
division, as the third conjunct states). -/
theorem c1_rsi_strictly_increasing :
    ∀ (closes : List ℚ) (p : ℕ),
      List.Chain' (fun a b : ℚ => a < b) closes → 2 ≤ p → p ≤ closes.length →
      (∀ i x, rsiAt closes p i = some x → x = 100)
      ∧ (∀ i, rsiAt closes p i = none)
      ∧ (∀ i, avgDownAt closes p i = some 0 → avgDownReplAt closes p i = none) := by
  intro closes p hchain hp hpl
  have hrepl : ∀ i, avgDownReplAt closes p i = none := by
    intro i
    by_cases hg : p ≤ i + 1 ∧ i < closes.length
    · by_cases hpi : p ≤ i
      · have havg : avgDownAt closes p i = some 0 := by
          unfold avgDownAt
          exact rollingMeanOptAt_const (by omega) hg.1 hg.2
            (fun j hj1 hj2 => downAt_eq_zero_of_chain hchain (by omega) (by omega))
        unfold avgDownReplAt
        rw [havg]
        simp
      · have h0 : (0 : ℕ) ∈ rollingWindow p i := by
          rw [mem_rollingWindow hg.1]
          omega
        have havg : avgDownAt closes p i = none := by
          unfold avgDownAt
          refine rollingMeanOptAt_none_of_mem h0 ?_
          unfold downAt
          rw [deltaAt_zero]
          rfl
        unfold avgDownReplAt
        rw [havg]
    · have havg : avgDownAt closes p i = none := by
        unfold avgDownAt
        exact rollingMeanOptAt_undef hg
      unfold avgDownReplAt
      rw [havg]
  have hnone : ∀ i, rsiAt closes p i = none := by
    intro i
    unfold rsiAt rsAt
    rw [hrepl i]
    cases avgUpAt closes p i <;> rfl
  refine ⟨fun i x hx => ?_, hnone, fun i h => ?_⟩
  · rw [hnone i] at hx
    cases hx
  · unfold avgDownReplAt
    rw [h]
    simp

/-- Witness for C1: the strictly increasing series `[1, 2, 3]` with
period 2; the RSI column is NaN at row 2 (and everywhere else). -/
theorem c1_rsi_strictly_increasing_witness :
    rsiAt [1, 2, 3] 2 2 = none :=
  (c1_rsi_strictly_increasing [1, 2, 3] 2
    (by norm_num [List.chain'_cons, List.chain'_singleton]) (by decide) (by decide)).2.1 2

/-! ### Claim C2: register then authenticate -/

/-- C2: registering a fresh `(username, password)` pair and then
authenticating with the same pair succeeds; `register` succeeds exactly
when the username is absent (so exactly once per unique username); and a
second `register` with the same username (any password) returns false and
leaves the table — hence the stored password — unchanged. -/
theorem c2_register_then_authenticate :
    ∀ (db : DB) (u p p2 : String),
      ((register_user db u p).1 = true →
          authenticate_user (register_user db u p).2 u p = true)
      ∧ ((register_user db u p).1 = true ↔ ∀ r ∈ db, r.1 ≠ u)
      ∧ ((register_user db u p).1 = true →
          (register_user (register_user db u p).2 u p2).1 = false
            ∧ (register_user (register_user db u p).2 u p2).2 = (register_user db u p).2) := by
  intro db u p p2
  by_cases hc : db.any (fun row => row.1 == u) = true
  · have h1 : register_user db u p = (false, db) := by
      unfold register_user
      rw [if_pos hc]
    rw [List.any_eq_true] at hc
    obtain ⟨r, hr, hru⟩ := hc
    rw [beq_iff_eq] at hru
    refine ⟨?_, ?_, ?_⟩
    · rw [h1]
      intro hfalse
      cases hfalse
    · rw [h1]
      constructor
      · intro hfalse
        cases hfalse
      · exact fun hall => absurd hru (hall r hr)
    · rw [h1]
      intro hfalse
      cases hfalse
  · have h1 : register_user db u p = (true, db ++ [(u, p)]) := by
      unfold register_user
      rw [if_neg hc]
    have hnew : ((db ++ [(u, p)]).any (fun row => row.1 == u)) = true := by
      rw [List.any_append]
      simp
    refine ⟨?_, ?_, ?_⟩
    · intro _
      rw [h1]
      unfold authenticate_user
      rw [List.any_append]
      simp
    · rw [h1]
      simp only [true_iff]
      intro r hr hru
      exact hc (List.any_eq_true.mpr ⟨r, hr, by simp [hru]⟩)
    · intro _
      rw [h1]
      unfold register_user
      rw [if_pos hnew]
      exact ⟨rfl, rfl⟩

/-- Witness for C2: registering `alice` in the empty table and logging in
with the same pair succeeds. -/
theorem c2_register_then_authenticate_witness :
    authenticate_user (register_user [] "alice" "hunter2").2 "alice" "hunter2" = true :=
  (c2_register_then_authenticate [] "alice" "hunter2" "other").1 (by decide)

/-! ### Claim C7: authenticate is exact case-sensitive match -/

/-- C7: `authenticate_user` returns true iff some stored row matches the
username and the password exactly (case-sensitive string equality); under
the UNIQUE-username invariant, any submitted password different from the
stored one — including a difference only in letter case — yields false. -/
theorem c7_authenticate_iff_exact_row :
    ∀ (db : DB) (u p : String),
      (authenticate_user db u p = true ↔ ∃ r ∈ db, r.1 = u ∧ r.2 = p)
      ∧ (db.Pairwise (fun r s => r.1 ≠ s.1) →
          ∀ pw p2, (u, pw) ∈ db → p2 ≠ pw → authenticate_user db u p2 = false) := by
  intro db u p
  have hiff : ∀ q, authenticate_user db u q = true ↔ ∃ r ∈ db, r.1 = u ∧ r.2 = q := by
    intro q
    unfold authenticate_user
    rw [List.any_eq_true]
    constructor
    · rintro ⟨r, hr, hb⟩
      rw [Bool.and_eq_true, beq_iff_eq, beq_iff_eq] at hb
      exact ⟨r, hr, hb⟩
    · rintro ⟨r, hr, h1, h2⟩
      refine ⟨r, hr, ?_⟩
      rw [Bool.and_eq_true, beq_iff_eq, beq_iff_eq]
      exact ⟨h1, h2⟩
  refine ⟨hiff p, ?_⟩
  intro hpw pw p2 hmem hne
  cases hval : authenticate_user db u p2 with
  | false => rfl
  | true =>
    exfalso
    obtain ⟨r, hr, hru, hrp⟩ := (hiff p2).mp hval
    have hsymm : Symmetric (fun r s : String × String => r.1 ≠ s.1) :=
      fun a b h e => h e.symm
    have hreq : r = (u, pw) := by
      by_contra hne2
      exact List.Pairwise.forall hsymm hpw hr hmem hne2 hru
    rw [hreq] at hrp
    exact hne hrp.symm

/-- Witness for C7: with `("alice", "Secret")` stored, submitting
`"secret"` (case difference only) is rejected. -/
theorem c7_authenticate_iff_exact_row_witness :
    authenticate_user [("alice", "Secret")] "alice" "secret" = false :=
  (c7_authenticate_iff_exact_row [("alice", "Secret")] "alice" "x").2
    (by simp) "Secret" "secret" (by simp) (by decide)

/-- The UNIQUE constraint invariant: `register_user` keeps usernames
pairwise distinct, which justifies the `Pairwise` hypothesis of the C7
theorem for every table the program can actually build. -/
theorem register_user_preserves_unique (db : DB) (u p : String)
    (h : db.Pairwise (fun r r2 => r.1 ≠ r2.1)) :
    ((register_user db u p).2).Pairwise (fun r r2 => r.1 ≠ r2.1) := by
  unfold register_user
  by_cases hc : db.any (fun row => row.1 == u) = true
  · rw [if_pos hc]
    exact h
  · rw [if_neg hc]
    show (db ++ [(u, p)]).Pairwise (fun r r2 => r.1 ≠ r2.1)
    rw [List.pairwise_append]
    refine ⟨h, by simp, ?_⟩
    intro r hr r2 hr2
    rw [List.mem_singleton] at hr2
    subst hr2
    intro heq
    apply hc
    rw [List.any_eq_true]
    exact ⟨r, hr, by simp [heq]⟩

theorem step_preserves_unique (s : AppState) (e : Event)
    (h : s.db.Pairwise (fun r r2 => r.1 ≠ r2.1)) :
    ((step s e).db).Pairwise (fun r r2 => r.1 ≠ r2.1) := by
  cases e with
  | loginEvent u p =>
    simp only [step]
    by_cases ha : authenticate_user s.db u p = true
    · rw [if_pos ha]
      exact h
    · rw [if_neg ha]
      exact h
  | registerEvent u p => exact register_user_preserves_unique s.db u p h
  | logoutEvent => exact h

/-- Every table reachable from the empty one has pairwise distinct
usernames. -/
theorem reachable_db_unique (es : List Event) :
    ((run initialState es).db).Pairwise (fun r r2 => r.1 ≠ r2.1) := by
  have hgen : ∀ (es2 : List Event) (s : AppState),
      s.db.Pairwise (fun r r2 => r.1 ≠ r2.1) →
      ((run s es2).db).Pairwise (fun r r2 => r.1 ≠ r2.1) := by
    intro es2
    induction es2 with
    | nil =>
      intro s hs
      exact hs
    | cons e es2 ih =>
      intro s hs
      unfold run
      rw [List.foldl_cons]
      exact ih (step s e) (step_preserves_unique s e hs)
  exact hgen es initialState List.Pairwise.nil

/-! ### Claim C9: the session state machine -/

/-- C9: starting from `Anonymous` (flag false), the flag becomes true only
through a login event whose `authenticate_user` call succeeds; a register
event never changes the flag (whether the registration succeeds or not);
logout forces the flag to false; and a run consisting of no login events
ends with the flag still false. -/
theorem c9_session_transitions :
    (∀ (s : AppState) (e : Event),
        ((step s e).authenticated = true →
          s.authenticated = true
            ∨ ∃ u p, e = Event.loginEvent u p ∧ authenticate_user s.db u p = true)
        ∧ (∀ u p, (step s (Event.registerEvent u p)).authenticated = s.authenticated)
        ∧ (step s Event.logoutEvent).authenticated = false)
    ∧ (∀ es, (∀ e ∈ es, ∀ u p, e ≠ Event.loginEvent u p) →
        (run initialState es).authenticated = false) := by
  constructor
  · intro s e
    refine ⟨?_, fun u p => rfl, rfl⟩
    intro h
    cases e with
    | loginEvent u p =>
      by_cases ha : authenticate_user s.db u p = true
      · exact Or.inr ⟨u, p, rfl, ha⟩
      · left
        simp only [step] at h
        rw [if_neg ha] at h
        exact h
    | registerEvent u p => exact Or.inl h
    | logoutEvent => exact Bool.noConfusion h
  · have hgen : ∀ (es : List Event) (s : AppState), s.authenticated = false →
        (∀ e ∈ es, ∀ u p, e ≠ Event.loginEvent u p) → (run s es).authenticated = false := by
      intro es
      induction es with
      | nil =>
        intro s hs _
        exact hs
      | cons e es ih =>
        intro s hs hall
        unfold run
        rw [List.foldl_cons]
        refine ih (step s e) ?_ (fun e2 he2 => hall e2 (List.mem_cons_of_mem e he2))
        cases e with
        | loginEvent u p => exact absurd rfl (hall _ (List.mem_cons_self _ _) u p)
        | registerEvent u p => exact hs
        | logoutEvent => rfl
    exact fun es hes => hgen es initialState rfl hes

/-- Witness for C9: a run containing a (successful) registration and a
logout but no login ends unauthenticated. -/
theorem c9_session_transitions_witness :
    (run initialState [Event.registerEvent "bob" "pw", Event.logoutEvent]).authenticated
      = false :=
  c9_session_transitions.2 [Event.registerEvent "bob" "pw", Event.logoutEvent]
    (by intro e he u p; fin_cases he <;> simp)

/-! ### Claim C8: start date after end date -/

/-- C8: whenever the start date is after the end date, the run emits
exactly the date-order error — in particular the fetch effect does not
occur, so the download is never invoked. -/
theorem c8_start_after_end_rejected :
    ∀ (fetchClose : String → Int → Int → List ℚ) (t : String) (s e : Int),
      s > e →
      main_app fetchClose t s e = [Effect.dateOrderError]
      ∧ (∀ t2 s2 e2, Effect.fetched t2 s2 e2 ∉ main_app fetchClose t s e) := by
  intro f t s e hse
  have h1 : main_app f t s e = [Effect.dateOrderError] := by
    unfold main_app
    rw [if_pos hse]
  refine ⟨h1, fun t2 s2 e2 hmem => ?_⟩
  rw [h1] at hmem
  simp at hmem

/-- Witness for C8: the spec scenario start 2021-06-01, end 2021-01-01
(as ordinal-style integers): only the date-order error is emitted. -/
theorem c8_start_after_end_rejected_witness :
    main_app (fun _ _ _ => []) "AAPL" 20210601 20210101 = [Effect.dateOrderError] :=
  (c8_start_after_end_rejected (fun _ _ _ => []) "AAPL" 20210601 20210101 (by decide)).1

/-! ### Claim C10: the ticker is uppercased before the fetch -/

theorem char_toNat_ofNat_valid {n : ℕ} (h : n.isValidChar) : (Char.ofNat n).toNat = n := by
  rw [Char.ofNat, dif_pos h]
  rfl

theorem char_toUpper_toUpper (c : Char) : c.toUpper.toUpper = c.toUpper := by
  have hdef : ∀ d : Char, d.toUpper
      = if d.toNat ≥ 97 ∧ d.toNat ≤ 122 then Char.ofNat (d.toNat - 32) else d := fun d => rfl
  by_cases h : c.toNat ≥ 97 ∧ c.toNat ≤ 122
  · have hval : Nat.isValidChar (c.toNat - 32) := Or.inl (by omega)
    rw [hdef c, if_pos h, hdef (Char.ofNat (c.toNat - 32)), if_neg ?_]
    rw [char_toNat_ofNat_valid hval]
    omega
  · rw [hdef c, if_neg h, hdef c, if_neg h]

/-- Two characters that differ at most in (basic latin) letter case. -/
def sameUpToCaseChar (c d : Char) : Prop := c = d ∨ c.toUpper = d ∨ c = d.toUpper

instance sameUpToCaseChar.instDecidable (c d : Char) : Decidable (sameUpToCaseChar c d) := by
  unfold sameUpToCaseChar
  infer_instance

/-- Two strings that differ only in letter case: pointwise
`sameUpToCaseChar` on their character lists. -/
def sameUpToCase (s t : String) : Prop := List.Forall₂ sameUpToCaseChar s.data t.data

theorem sameUpToCaseChar_toUpper {c d : Char} (h : sameUpToCaseChar c d) :
    c.toUpper = d.toUpper := by
  rcases h with rfl | h | h
  · rfl
  · rw [← h, char_toUpper_toUpper]
  · rw [h, char_toUpper_toUpper]

theorem sameUpToCase_toUpper {s t : String} (h : sameUpToCase s t) :
    s.toUpper = t.toUpper := by
  have hmap : ∀ {l1 l2 : List Char}, List.Forall₂ sameUpToCaseChar l1 l2 →
      l1.map Char.toUpper = l2.map Char.toUpper := by
    intro l1 l2 hf
    induction hf with
    | nil => rfl
    | cons h1 _ ih => rw [List.map_cons, List.map_cons, sameUpToCaseChar_toUpper h1, ih]
  show String.map Char.toUpper s = String.map Char.toUpper t
  rw [String.map_eq, String.map_eq]
  exact congrArg String.mk (hmap h)

/-- C10: every fetch effect of a run carries exactly the uppercased form
of the entered ticker (with the requested dates); consequently two runs
whose ticker inputs differ only in letter case produce identical traces —
the same fetch request, hence the same data. -/
theorem c10_fetch_uses_uppercased_ticker :
    ∀ (fetchClose : String → Int → Int → List ℚ) (t : String) (s e : Int),
      (∀ t2 s2 e2, Effect.fetched t2 s2 e2 ∈ main_app fetchClose t s e →
          t2 = t.toUpper ∧ s2 = s ∧ e2 = e)
      ∧ (∀ t2, sameUpToCase t t2 →
          main_app fetchClose t s e = main_app fetchClose t2 s e) := by
  intro f t s e
  constructor
  · intro t2 s2 e2 hmem
    unfold main_app at hmem
    by_cases hse : s > e
    · rw [if_pos hse] at hmem
      simp at hmem
    · rw [if_neg hse] at hmem
      by_cases hempty : (f t.toUpper s e).isEmpty
      · rw [if_pos hempty] at hmem
        simp at hmem
        exact hmem
      · rw [if_neg hempty] at hmem
        simp at hmem
        exact hmem
  · intro t2 hsame
    unfold main_app
    rw [sameUpToCase_toUpper hsame]

/-- Witness for C10: `"aApL"` and `"AAPL"` differ only in letter case, and
the two runs produce the same trace even through a fetch oracle that is
sensitive to the exact ticker string it receives. -/
theorem c10_fetch_uses_uppercased_ticker_witness :
    main_app (fun tk _ _ => if tk = "AAPL" then [1] else []) "aApL" 1 5
      = main_app (fun tk _ _ => if tk = "AAPL" then [1] else []) "AAPL" 1 5 :=
  (c10_fetch_uses_uppercased_ticker (fun tk _ _ => if tk = "AAPL" then [1] else [])
      "aApL" 1 5).2 "AAPL"
    (List.Forall₂.cons (by decide) (List.Forall₂.cons (by decide)
      (List.Forall₂.cons (by decide) (List.Forall₂.cons (by decide) List.Forall₂.nil))))

end StockApp
